import Mathlib

/-!
Verification of the float facade crate (`src/lib.rs`).

The crate is a set of one-line forwarding traits over the native `f32` and
`f64` types.  We embed the two widths as IEEE-754-style binary floating
point values: a value is NaN, a signed infinity, or a sign together with a
nonnegative rational magnitude.  The exactly-specified native operations
(comparison, `min`, `max`, `signum`, multiplication, division, casts,
integer conversion, literal rounding) are modelled by round-to-nearest-even
over the rationals, parametric in the format (precision, maximal exponent).
The transcendental operations (`Trig`, `Powf`, `Sqrt`) have no exact
portable specification; the facade only forwards to them, so they are
modelled as an abstract bundle of native functions the facade forwards to.
-/

set_option maxRecDepth 4000

namespace PistonFloat

/-- A binary floating point format: precision in bits and maximal exponent.
`binary32` is `⟨24, 127⟩`, `binary64` is `⟨53, 1023⟩`; the minimal normal
exponent is `1 - emax`. -/
structure FpFmt where
  prec : ℕ
  emax : ℤ

/-- The `f32` format. -/
def binary32 : FpFmt := ⟨24, 127⟩

/-- The `f64` format. -/
def binary64 : FpFmt := ⟨53, 1023⟩

/-- A floating point datum: NaN, a signed infinity, or a finite value given
by a sign bit and a nonnegative rational magnitude.  `fin true m` denotes
`-m`, `fin false m` denotes `+m`; `fin s 0` are the two signed zeros. -/
inductive Fp where
  | nan : Fp
  | inf (neg : Bool) : Fp
  | fin (neg : Bool) (mag : ℚ) : Fp
deriving DecidableEq

/-- The rational value of a finite datum (`none` for NaN and infinities). -/
def val : Fp → Option ℚ
  | .fin s m => some (if s then -m else m)
  | _ => none

/-- Well-formed datum: a finite value carries a nonnegative magnitude. -/
def wfb : Fp → Bool
  | .fin _ m => decide (0 ≤ m)
  | _ => true

/-- Square-and-multiply `b ^ n`, structurally recursive on a fuel that
bounds the bit length of `n`, so that kernel evaluation stays shallow. -/
def pow2Aux : ℕ → ℕ → ℚ → ℚ
  | 0, _, _ => 1
  | f + 1, n, b =>
      if n = 0 then 1
      else
        let h := pow2Aux f (n / 2) (b * b)
        if n % 2 = 1 then b * h else h

/-- `2 ^ n` over ℚ (correct for every `n < 2 ^ 64`, far beyond any
exponent the two formats can produce). -/
def pow2 (n : ℕ) : ℚ := pow2Aux 64 n 2

/-- `2 ^ e` over ℚ for an integer exponent. -/
def zpow2 : ℤ → ℚ
  | .ofNat n => pow2 n
  | .negSucc n => (pow2 (n + 1))⁻¹

/-- Upward linear search for the binade of `q`: maintains `p = 2 ^ (e + 1)`
and increases `e` until `q < 2 ^ (e + 1)`.  Structural recursion on an
explicit fuel so that the kernel can evaluate it on literals. -/
def expUp : ℕ → ℚ → ℤ → ℚ → ℤ
  | 0, _, e, _ => e
  | f + 1, q, e, p => if q < p then e else expUp f q (e + 1) (2 * p)

/-- Downward linear search for the binade of `q`: maintains `p = 2 ^ e` and
decreases `e` until `2 ^ e ≤ q`. -/
def expDown : ℕ → ℚ → ℤ → ℚ → ℤ
  | 0, _, e, _ => e
  | f + 1, q, e, p => if p ≤ q then e else expDown f q (e - 1) (p / 2)

/-- Floor of the base-2 logarithm of a positive rational.  The fuel `5000`
covers every magnitude in `[2 ^ (-5000), 2 ^ 5000)`, far beyond anything
the `binary32` / `binary64` operations can produce; outside that range the
search saturates (and `rndPos` is only ever proved correct inside it). -/
def qexp (q : ℚ) : ℤ :=
  if 1 ≤ q then expUp 5000 q 0 2 else expDown 5000 q (-1) (1 / 2)

/-- Round a rational to the nearest integer, ties to even. -/
def rhe (x : ℚ) : ℤ :=
  if x - ⌊x⌋ < 1/2 then ⌊x⌋
  else if 1/2 < x - ⌊x⌋ then ⌊x⌋ + 1
  else if ⌊x⌋ % 2 = 0 then ⌊x⌋ else ⌊x⌋ + 1

/-- Round-to-nearest-even of a positive rational magnitude in format `F`
(with unbounded top exponent; overflow is handled by `finMag`).  The
quantum is `2 ^ (e + 1 - prec)` where `e` is the (subnormal-clamped)
exponent of `q`. -/
def rndPos (F : FpFmt) (q : ℚ) : ℚ :=
  if q ≤ 0 then 0
  else
    (rhe (q / zpow2 (max (qexp q) (1 - F.emax) + 1 - (F.prec : ℤ))) : ℚ) *
      zpow2 (max (qexp q) (1 - F.emax) + 1 - (F.prec : ℤ))

/-- Largest finite magnitude of format `F`. -/
def maxFinite (F : FpFmt) : ℚ :=
  (pow2 F.prec - 1) * zpow2 (F.emax + 1 - (F.prec : ℤ))

/-- Build a finite float from a sign and an exact nonnegative magnitude:
round the magnitude, overflowing to infinity. -/
def finMag (F : FpFmt) (s : Bool) (q : ℚ) : Fp :=
  let r := rndPos F q
  if maxFinite F < r then .inf s else .fin s r

/-- Signed rational value of a sign/magnitude pair. -/
def sval (s : Bool) (m : ℚ) : ℚ := if s then -m else m

/-- IEEE `<` comparison (`false` whenever NaN is involved). -/
def flt : Fp → Fp → Bool
  | .nan, _ => false
  | _, .nan => false
  | .inf s, .inf t => s && !t
  | .inf s, .fin _ _ => s
  | .fin _ _, .inf t => !t
  | .fin s m, .fin t n => decide (sval s m < sval t n)

/-- IEEE `==` comparison: NaN compares unequal to everything (itself
included); the two zeros compare equal. -/
def feq : Fp → Fp → Bool
  | .nan, _ => false
  | _, .nan => false
  | .inf s, .inf t => s == t
  | .inf _, .fin _ _ => false
  | .fin _ _, .inf _ => false
  | .fin s m, .fin t n => decide (sval s m = sval t n)

/-- IEEE `<=` comparison. -/
def fle (a b : Fp) : Bool := flt a b || feq a b

/-- IEEE multiplication in format `F`: sign is the xor of the signs, the
exact product of the magnitudes is rounded; `0 × ∞` is NaN. -/
def fmul (F : FpFmt) : Fp → Fp → Fp
  | .nan, _ => .nan
  | _, .nan => .nan
  | .inf s, .inf t => .inf (xor s t)
  | .inf s, .fin t m => if m = 0 then .nan else .inf (xor s t)
  | .fin s m, .inf t => if m = 0 then .nan else .inf (xor s t)
  | .fin s m, .fin t n => finMag F (xor s t) (m * n)

/-- IEEE division in format `F`: `∞/∞` and `0/0` are NaN, `x/0` is a signed
infinity for `x ≠ 0`, `x/∞` is a signed zero. -/
def fdiv (F : FpFmt) : Fp → Fp → Fp
  | .nan, _ => .nan
  | _, .nan => .nan
  | .inf _, .inf _ => .nan
  | .inf s, .fin t _ => .inf (xor s t)
  | .fin s _, .inf t => .fin (xor s t) 0
  | .fin s m, .fin t n =>
      if n = 0 then (if m = 0 then .nan else .inf (xor s t))
      else finMag F (xor s t) (m / n)

/-- Minimum (`impl Min for f32/f64`, forwarding to native `min`): if one
argument is NaN the other is returned, otherwise the smaller; on a tie the
second argument is returned (native behaviour leaves the choice between
equal values, e.g. the two zeros, unspecified).  Both width impls forward
to the same width-independent comparison semantics. -/
def fmin (a b : Fp) : Fp :=
  if a = .nan then b else if b = .nan then a else if flt a b then a else b

/-- Maximum (`impl Max for f32/f64`, forwarding to native `max`). -/
def fmax (a b : Fp) : Fp :=
  if a = .nan then b else if b = .nan then a else if flt a b then b else a

/-- Sign (`impl Signum for f32/f64`, forwarding to native `signum`):
`1.0` for positive values, `+0.0` and `+∞`; `-1.0` for negative values,
`-0.0` and `-∞`; NaN for NaN. -/
def signum : Fp → Fp
  | .nan => .nan
  | .inf s => .fin s 1
  | .fin s _ => .fin s 1

/-- A floating point literal of format `F`: the compiler rounds the exact
decimal value to the nearest representable, ties to even. -/
def fpOfLit (F : FpFmt) (q : ℚ) : Fp := finMag F false q

/-- The decimal literal behind `std::f32/f64::consts::PI`
(`3.14159265358979323846264338327950288`). -/
def piLit : ℚ := 314159265358979323846264338327950288 / (10 : ℚ) ^ (35 : ℕ)

/-- The decimal literal behind `std::f32/f64::consts::FRAC_PI_2`
(`1.57079632679489661923132169163975144`). -/
def fracPi2Lit : ℚ := 157079632679489661923132169163975144 / (10 : ℚ) ^ (35 : ℕ)

/-- `Radians::_90()` (lib.rs 124-127, 151-154): the width's `FRAC_PI_2`
constant. -/
def Radians90 (F : FpFmt) : Fp := fpOfLit F fracPi2Lit

/-- `Radians::_180()` (lib.rs 129-132, 156-159): the width's `PI`
constant. -/
def Radians180 (F : FpFmt) : Fp := fpOfLit F piLit

/-- `Radians::_360()` (lib.rs 134-137, 161-164): `Self::_180() * 2.0`. -/
def Radians360 (F : FpFmt) : Fp := fmul F (Radians180 F) (fpOfLit F 2)

/-- `Radians::deg_to_rad` (lib.rs 139-142, 166-169):
`self * (consts::PI / 180.0)`. -/
def deg_to_rad (F : FpFmt) (x : Fp) : Fp :=
  fmul F x (fdiv F (fpOfLit F piLit) (fpOfLit F 180))

/-- `Radians::rad_to_deg` (lib.rs 144-147, 171-174):
`self * (180.0 / consts::PI)`. -/
def rad_to_deg (F : FpFmt) (x : Fp) : Fp :=
  fmul F x (fdiv F (fpOfLit F 180) (fpOfLit F piLit))

/-- `One::one()` (lib.rs 189-197): the literal `1.0`. -/
def fpOne (F : FpFmt) : Fp := fpOfLit F 1

/-- `Zero::zero()` (lib.rs 199-207): the literal `0.0`. -/
def fpZero (F : FpFmt) : Fp := fpOfLit F 0

/-- `Cast<f32> for f64` (lib.rs 343-346): `self as f32`, the native
narrowing conversion (round to nearest even, overflowing to infinity). -/
def cast_f64_f32 : Fp → Fp
  | .nan => .nan
  | .inf s => .inf s
  | .fin s m => finMag binary32 s m

/-- `Cast<f64> for f32` (lib.rs 348-351): `self as f64`.  Every `f32`
value is exactly representable in `f64`, so on values the widening
conversion is the identity. -/
def cast_f32_f64 (x : Fp) : Fp := x

/-- `Cast<f32> for f32` (lib.rs 353-356): returns `self`. -/
def cast_f32_f32 (x : Fp) : Fp := x

/-- `Cast<f64> for f64` (lib.rs 358-361): returns `self`. -/
def cast_f64_f64 (x : Fp) : Fp := x

/-- Conversion of a (signed) machine integer value to format `F`, the
native rounding int-to-float conversion (`t as f32`, `t as f64`). -/
def intToFp (F : FpFmt) (t : ℤ) : Fp := finMag F (decide (t < 0)) (t.natAbs : ℚ)

/-- `FromPrimitive for f64` (lib.rs 378-389). -/
def f64_from_f64 (t : Fp) : Fp := t

/-- `FromPrimitive for f64`: `t as f64` on an `f32` value is exact. -/
def f64_from_f32 (t : Fp) : Fp := cast_f32_f64 t

/-- `FromPrimitive for f64`: `t as f64` on an `isize`. -/
def f64_from_isize (t : ℤ) : Fp := intToFp binary64 t

/-- `FromPrimitive for f64`: `t as f64` on a `u32`. -/
def f64_from_u32 (t : ℕ) : Fp := finMag binary64 false (t : ℚ)

/-- `FromPrimitive for f64`: `t as f64` on an `i32`. -/
def f64_from_i32 (t : ℤ) : Fp := intToFp binary64 t

/-- `FromPrimitive for f32` (lib.rs 391-402). -/
def f32_from_f64 (t : Fp) : Fp := cast_f64_f32 t

/-- `FromPrimitive for f32`: `from_f32` returns `t` unchanged. -/
def f32_from_f32 (t : Fp) : Fp := t

/-- `FromPrimitive for f32`: `t as f32` on an `isize`. -/
def f32_from_isize (t : ℤ) : Fp := intToFp binary32 t

/-- `FromPrimitive for f32`: `t as f32` on a `u32`. -/
def f32_from_u32 (t : ℕ) : Fp := finMag binary32 false (t : ℚ)

/-- `FromPrimitive for f32`: `t as f32` on an `i32`. -/
def f32_from_i32 (t : ℤ) : Fp := intToFp binary32 t

/-- The native transcendental functions of one width.  Rust's `sin`,
`powf`, `sqrt`, … have no exact portable specification (they call libm);
the facade only forwards to them, so they are modelled as an abstract
bundle of total functions. -/
structure NativeFns where
  sin : Fp → Fp
  cos : Fp → Fp
  tan : Fp → Fp
  asin : Fp → Fp
  acos : Fp → Fp
  atan : Fp → Fp
  sinh : Fp → Fp
  cosh : Fp → Fp
  tanh : Fp → Fp
  asinh : Fp → Fp
  acosh : Fp → Fp
  atanh : Fp → Fp
  sqrt : Fp → Fp
  atan2 : Fp → Fp → Fp
  powf : Fp → Fp → Fp

/-- `Trig::sin` (lib.rs 255-335): forwards to the native function. -/
def trig_sin (N : NativeFns) (x : Fp) : Fp := N.sin x

/-- `Trig::cos`: forwards to the native function. -/
def trig_cos (N : NativeFns) (x : Fp) : Fp := N.cos x

/-- `Trig::tan`: forwards to the native function. -/
def trig_tan (N : NativeFns) (x : Fp) : Fp := N.tan x

/-- `Trig::asin`: forwards to the native function. -/
def trig_asin (N : NativeFns) (x : Fp) : Fp := N.asin x

/-- `Trig::acos`: forwards to the native function. -/
def trig_acos (N : NativeFns) (x : Fp) : Fp := N.acos x

/-- `Trig::atan`: forwards to the native function. -/
def trig_atan (N : NativeFns) (x : Fp) : Fp := N.atan x

/-- `Trig::atan2`: forwards to the native function. -/
def trig_atan2 (N : NativeFns) (y x : Fp) : Fp := N.atan2 y x

/-- `Trig::sinh`: forwards to the native function. -/
def trig_sinh (N : NativeFns) (x : Fp) : Fp := N.sinh x

/-- `Trig::cosh`: forwards to the native function. -/
def trig_cosh (N : NativeFns) (x : Fp) : Fp := N.cosh x

/-- `Trig::tanh`: forwards to the native function. -/
def trig_tanh (N : NativeFns) (x : Fp) : Fp := N.tanh x

/-- `Trig::asinh`: forwards to the native function. -/
def trig_asinh (N : NativeFns) (x : Fp) : Fp := N.asinh x

/-- `Trig::acosh`: forwards to the native function. -/
def trig_acosh (N : NativeFns) (x : Fp) : Fp := N.acosh x

/-- `Trig::atanh`: forwards to the native function. -/
def trig_atanh (N : NativeFns) (x : Fp) : Fp := N.atanh x

/-- `Powf::powf` (lib.rs 93-101): forwards to the native function. -/
def powf_powf (N : NativeFns) (a b : Fp) : Fp := N.powf a b

/-- `Sqrt::sqrt` (lib.rs 215-223): forwards to the native function. -/
def sqrt_sqrt (N : NativeFns) (x : Fp) : Fp := N.sqrt x

/-- A native bundle preserves well-formedness: it maps values to values. -/
def wfN (N : NativeFns) : Prop :=
  (∀ x, wfb x = true → wfb (N.sin x) = true) ∧
  (∀ x, wfb x = true → wfb (N.cos x) = true) ∧
  (∀ x, wfb x = true → wfb (N.tan x) = true) ∧
  (∀ x, wfb x = true → wfb (N.asin x) = true) ∧
  (∀ x, wfb x = true → wfb (N.acos x) = true) ∧
  (∀ x, wfb x = true → wfb (N.atan x) = true) ∧
  (∀ x, wfb x = true → wfb (N.sinh x) = true) ∧
  (∀ x, wfb x = true → wfb (N.cosh x) = true) ∧
  (∀ x, wfb x = true → wfb (N.tanh x) = true) ∧
  (∀ x, wfb x = true → wfb (N.asinh x) = true) ∧
  (∀ x, wfb x = true → wfb (N.acosh x) = true) ∧
  (∀ x, wfb x = true → wfb (N.atanh x) = true) ∧
  (∀ x, wfb x = true → wfb (N.sqrt x) = true) ∧
  (∀ x y, wfb x = true → wfb y = true → wfb (N.atan2 x y) = true) ∧
  (∀ x y, wfb x = true → wfb y = true → wfb (N.powf x y) = true)

/-- The identity native bundle, used to witness totality. -/
def natId : NativeFns :=
  ⟨fun x => x, fun x => x, fun x => x, fun x => x, fun x => x, fun x => x,
   fun x => x, fun x => x, fun x => x, fun x => x, fun x => x, fun x => x,
   fun x => x, fun x _ => x, fun x _ => x⟩

/-- Totality/closedness of the whole facade at given inputs: every
operation of every capability returns a well-formed value of the width. -/
def TotalityAt (N : NativeFns) (x y : Fp) (t : ℤ) (u : ℕ) : Prop :=
  wfb (fmin x y) = true ∧ wfb (fmax x y) = true ∧ wfb (signum x) = true ∧
  wfb (powf_powf N x y) = true ∧ wfb (sqrt_sqrt N x) = true ∧
  wfb (trig_sin N x) = true ∧ wfb (trig_cos N x) = true ∧
  wfb (trig_tan N x) = true ∧ wfb (trig_asin N x) = true ∧
  wfb (trig_acos N x) = true ∧ wfb (trig_atan N x) = true ∧
  wfb (trig_atan2 N x y) = true ∧ wfb (trig_sinh N x) = true ∧
  wfb (trig_cosh N x) = true ∧ wfb (trig_tanh N x) = true ∧
  wfb (trig_asinh N x) = true ∧ wfb (trig_acosh N x) = true ∧
  wfb (trig_atanh N x) = true ∧
  (∀ F : FpFmt, wfb (Radians90 F) = true ∧ wfb (Radians180 F) = true ∧
    wfb (Radians360 F) = true ∧ wfb (deg_to_rad F x) = true ∧
    wfb (rad_to_deg F x) = true ∧ wfb (fpOne F) = true ∧
    wfb (fpZero F) = true) ∧
  wfb (cast_f32_f32 x) = true ∧ wfb (cast_f64_f64 x) = true ∧
  wfb (cast_f32_f64 x) = true ∧ wfb (cast_f64_f32 x) = true ∧
  wfb (f64_from_f64 x) = true ∧ wfb (f64_from_f32 x) = true ∧
  wfb (f64_from_isize t) = true ∧ wfb (f64_from_u32 u) = true ∧
  wfb (f64_from_i32 t) = true ∧
  wfb (f32_from_f64 x) = true ∧ wfb (f32_from_f32 x) = true ∧
  wfb (f32_from_isize t) = true ∧ wfb (f32_from_u32 u) = true ∧
  wfb (f32_from_i32 t) = true

/-- Machine epsilon of format `F`: `2 ^ (1 - prec)`. -/
def fpEps (F : FpFmt) : ℚ := zpow2 (1 - (F.prec : ℤ))

/-- The magnitude of the float constant `180.0 / consts::PI` computed by
`rad_to_deg` in format `F`. -/
def radToDegFactor (F : FpFmt) : ℚ := rndPos F (180 / rndPos F piLit)

/-- The magnitude of the float constant `consts::PI / 180.0` computed by
`deg_to_rad` in format `F`. -/
def degToRadFactor (F : FpFmt) : ℚ := rndPos F (rndPos F piLit / 180)

/-- `a` and `b` are both finite and their values differ by at most
`eps`. -/
def withinEpsB (eps : ℚ) (a b : Fp) : Bool :=
  match val a, val b with
  | some x, some y => decide (|x - y| ≤ eps)
  | _, _ => false

theorem pow2Aux_pos (f : ℕ) : ∀ (n : ℕ) (b : ℚ), 0 < b → 0 < pow2Aux f n b := by
  induction f with
  | zero => intro n b _; simp [pow2Aux]
  | succ f ih =>
    intro n b hb
    simp only [pow2Aux]
    split
    · exact one_pos
    · split
      · exact mul_pos hb (ih _ _ (mul_pos hb hb))
      · exact ih _ _ (mul_pos hb hb)

theorem pow2_pos (n : ℕ) : 0 < pow2 n := pow2Aux_pos 64 n 2 two_pos

theorem zpow2_pos (e : ℤ) : 0 < zpow2 e := by
  cases e with
  | ofNat n => exact pow2_pos n
  | negSucc n => exact inv_pos.mpr (pow2_pos (n + 1))

theorem pow2Aux_eq (f : ℕ) : ∀ (n : ℕ) (b : ℚ), n < 2 ^ f → pow2Aux f n b = b ^ n := by
  induction f with
  | zero =>
    intro n b hn
    have : n = 0 := by omega
    subst this
    simp [pow2Aux]
  | succ f ih =>
    intro n b hn
    by_cases h0 : n = 0
    · subst h0; simp [pow2Aux]
    · have hdiv : n / 2 < 2 ^ f := by
        have h2 : (2 : ℕ) ^ (f + 1) = 2 ^ f * 2 := by ring
        exact Nat.div_lt_of_lt_mul (by omega)
      have hrec := ih (n / 2) (b * b) hdiv
      have hbb : (b * b) ^ (n / 2) = b ^ (2 * (n / 2)) := by
        rw [two_mul, pow_add]
        exact mul_pow b b (n / 2)
      rw [show pow2Aux (f + 1) n b =
          if n = 0 then 1
          else if n % 2 = 1 then b * pow2Aux f (n / 2) (b * b)
          else pow2Aux f (n / 2) (b * b) from rfl]
      rw [if_neg h0]
      by_cases hm : n % 2 = 1
      · rw [if_pos hm, hrec, hbb, ← pow_succ']
        exact congrArg (b ^ ·) (by omega)
      · rw [if_neg hm, hrec, hbb]
        exact congrArg (b ^ ·) (by omega)

theorem pow2_eq (n : ℕ) (hn : n < 2 ^ 64) : pow2 n = 2 ^ n := pow2Aux_eq 64 n 2 hn

theorem zpow2_eq (e : ℤ) (he : e.natAbs < 2 ^ 64) : zpow2 e = (2 : ℚ) ^ e := by
  cases e with
  | ofNat n =>
    have hn : n < 2 ^ 64 := by simpa [Int.natAbs] using he
    show pow2 n = _
    rw [pow2_eq n hn]
    exact (zpow_natCast (2 : ℚ) n).symm
  | negSucc n =>
    have hn : n + 1 < 2 ^ 64 := by simpa [Int.natAbs] using he
    show (pow2 (n + 1))⁻¹ = _
    rw [pow2_eq (n + 1) hn, zpow_negSucc]

theorem rhe_abs (x : ℚ) : |(rhe x : ℚ) - x| ≤ 1 / 2 := by
  have h4 : (⌊x⌋ : ℚ) ≤ x := Int.floor_le x
  have h5 : x < ⌊x⌋ + 1 := Int.lt_floor_add_one x
  unfold rhe
  split_ifs with h1 h2 h3 <;> rw [abs_le] <;> constructor <;> push_cast <;> linarith

theorem rhe_nonneg (x : ℚ) (hx : 0 ≤ x) : 0 ≤ rhe x := by
  have hf : 0 ≤ ⌊x⌋ := Int.floor_nonneg.mpr hx
  unfold rhe
  split_ifs <;> omega

theorem rhe_intCast (n : ℤ) : rhe (n : ℚ) = n := by
  unfold rhe
  rw [Int.floor_intCast]
  norm_num

theorem rndPos_nonneg (F : FpFmt) (q : ℚ) : 0 ≤ rndPos F q := by
  unfold rndPos
  split_ifs with h
  · exact le_refl 0
  · have hq : 0 < q := lt_of_not_ge h
    have hz := zpow2_pos (max (qexp q) (1 - F.emax) + 1 - (F.prec : ℤ))
    have hdiv : (0 : ℚ) ≤ q / zpow2 (max (qexp q) (1 - F.emax) + 1 - (F.prec : ℤ)) :=
      le_of_lt (div_pos hq hz)
    have hr := rhe_nonneg _ hdiv
    exact mul_nonneg (by exact_mod_cast hr) (le_of_lt hz)

theorem expUp_spec (f : ℕ) : ∀ (e : ℤ) (q : ℚ), (2 : ℚ) ^ e ≤ q →
    q < 2 ^ (e + (f : ℤ) + 1) →
    (2 : ℚ) ^ (expUp f q e (2 ^ (e + 1))) ≤ q ∧
      q < 2 ^ (expUp f q e (2 ^ (e + 1)) + 1) := by
  induction f with
  | zero =>
    intro e q h1 h2
    refine ⟨by simpa [expUp] using h1, ?_⟩
    simpa [expUp] using h2
  | succ f ih =>
    intro e q h1 h2
    by_cases hq : q < 2 ^ (e + 1)
    · simp only [expUp, if_pos hq]
      exact ⟨h1, hq⟩
    · have hstep : (2 : ℚ) * 2 ^ (e + 1) = 2 ^ (e + 1 + 1) := by
        rw [zpow_add_one₀ two_ne_zero (e + 1)]
        ring
      have hrw : expUp (f + 1) q e (2 ^ (e + 1)) = expUp f q (e + 1) (2 ^ (e + 1 + 1)) := by
        simp only [expUp, if_neg hq, hstep]
      rw [hrw]
      have hexp : e + ((f + 1 : ℕ) : ℤ) + 1 = e + 1 + (f : ℤ) + 1 := by push_cast; ring
      rw [hexp] at h2
      exact ih (e + 1) q (le_of_not_lt hq) h2

theorem expDown_spec (f : ℕ) : ∀ (e : ℤ) (q : ℚ), 0 < q → q < 2 ^ (e + 1) →
    (2 : ℚ) ^ (e - (f : ℤ)) ≤ q →
    (2 : ℚ) ^ (expDown f q e (2 ^ e)) ≤ q ∧
      q < 2 ^ (expDown f q e (2 ^ e) + 1) := by
  induction f with
  | zero =>
    intro e q _ h2 h3
    refine ⟨by simpa [expDown] using h3, by simpa [expDown] using h2⟩
  | succ f ih =>
    intro e q h0 h2 h3
    by_cases hq : 2 ^ e ≤ q
    · simp only [expDown, if_pos hq]
      exact ⟨hq, h2⟩
    · have hstep : (2 : ℚ) ^ e / 2 = 2 ^ (e - 1) := by
        rw [zpow_sub_one₀ two_ne_zero e]
        ring
      have hrw : expDown (f + 1) q e (2 ^ e) = expDown f q (e - 1) (2 ^ (e - 1)) := by
        simp only [expDown, if_neg hq, hstep]
      rw [hrw]
      have h2' : q < 2 ^ (e - 1 + 1) := by
        rw [sub_add_cancel]
        exact lt_of_not_ge hq
      have hexp : e - ((f + 1 : ℕ) : ℤ) = e - 1 - (f : ℤ) := by push_cast; ring
      rw [hexp] at h3
      exact ih (e - 1) q h0 h2' h3

theorem qexp_spec (q : ℚ) (h1 : (2 : ℚ) ^ (-4000 : ℤ) ≤ q)
    (h2 : q < (2 : ℚ) ^ (4000 : ℤ)) :
    (2 : ℚ) ^ (qexp q) ≤ q ∧ q < 2 ^ (qexp q + 1) := by
  unfold qexp
  split_ifs with hq
  · have hl : (2 : ℚ) ^ (0 : ℤ) ≤ q := by simpa using hq
    have hr : q < 2 ^ ((0 : ℤ) + (5000 : ℕ) + 1) := by
      refine lt_of_lt_of_le h2 (zpow_le_zpow_right₀ one_le_two (by norm_num))
    have hspec := expUp_spec 5000 0 q hl hr
    simpa using hspec
  · have h0 : 0 < q := lt_of_lt_of_le (zpow_pos two_pos _) h1
    have hup : q < 2 ^ ((-1 : ℤ) + 1) := by
      simpa using lt_of_not_ge hq
    have hlow : (2 : ℚ) ^ ((-1 : ℤ) - (5000 : ℕ)) ≤ q := by
      refine le_trans (zpow_le_zpow_right₀ one_le_two (by norm_num)) h1
    have h2eq : (1 : ℚ) / 2 = 2 ^ (-1 : ℤ) := by norm_num
    rw [h2eq]
    exact expDown_spec 5000 (-1) q h0 hup hlow

/-- Correctness of round-to-nearest-even on the normal range: the result is
positive, representable (below the overflow threshold), and within
relative error `2 ^ (-prec)` of the exact value. -/
theorem rndPos_spec (F : FpFmt) (hp1 : 1 ≤ F.prec) (hp2 : F.prec ≤ 100)
    (he1 : 1 ≤ F.emax) (he2 : F.emax ≤ 2000) (q : ℚ)
    (hlo : (2 : ℚ) ^ (1 - F.emax) ≤ q) (hhi : q ≤ (2 : ℚ) ^ F.emax) :
    0 < rndPos F q ∧ rndPos F q ≤ maxFinite F ∧
      |rndPos F q - q| ≤ (2 : ℚ) ^ (-(F.prec : ℤ)) * q := by
  have hq0 : 0 < q := lt_of_lt_of_le (zpow_pos two_pos _) hlo
  have hnle : ¬ q ≤ 0 := not_le.mpr hq0
  have hq4a : (2 : ℚ) ^ (-4000 : ℤ) ≤ q :=
    le_trans (zpow_le_zpow_right₀ one_le_two (by omega)) hlo
  have hq4b : q < (2 : ℚ) ^ (4000 : ℤ) :=
    lt_of_le_of_lt hhi (zpow_lt_zpow_right₀ one_lt_two (by omega))
  obtain ⟨hsp1, hsp2⟩ := qexp_spec q hq4a hq4b
  have h64 : (2 : ℕ) ^ 64 = 18446744073709551616 := by norm_num
  rw [show rndPos F q =
      (rhe (q / zpow2 (max (qexp q) (1 - F.emax) + 1 - (F.prec : ℤ))) : ℚ) *
        zpow2 (max (qexp q) (1 - F.emax) + 1 - (F.prec : ℤ)) from by
    unfold rndPos; rw [if_neg hnle]]
  set p : ℤ := (F.prec : ℤ) with hpd
  have hp1' : (1 : ℤ) ≤ p := by rw [hpd]; exact_mod_cast hp1
  have hp2' : p ≤ 100 := by rw [hpd]; exact_mod_cast hp2
  set e : ℤ := max (qexp q) (1 - F.emax) with he
  have heb1 : (2 : ℚ) ^ e ≤ q := by
    rcases max_choice (qexp q) (1 - F.emax) with hmc | hmc <;> rw [he, hmc]
    · exact hsp1
    · exact hlo
  have heb2 : q < 2 ^ (e + 1) := by
    rcases le_or_lt (1 - F.emax) (qexp q) with hmc | hmc
    · rw [he, max_eq_left hmc]; exact hsp2
    · rw [he, max_eq_right (le_of_lt hmc)]
      exact lt_of_lt_of_le hsp2 (zpow_le_zpow_right₀ one_le_two (by omega))
  have hqle : qexp q ≤ F.emax := (zpow_le_zpow_iff_right₀ one_lt_two).mp (le_trans hsp1 hhi)
  have hee : e ≤ F.emax := by rw [he]; exact max_le hqle (by omega)
  have hge : 1 - F.emax ≤ e := by rw [he]; exact le_max_right _ _
  have hNa : (e + 1 - p).natAbs < 2 ^ 64 := by rw [h64]; omega
  rw [zpow2_eq _ hNa]
  set Q : ℚ := (2 : ℚ) ^ (e + 1 - p) with hQd
  have hQpos : (0 : ℚ) < Q := zpow_pos two_pos _
  set s : ℚ := q / Q with hsd
  have hs1 : (2 : ℚ) ^ (p - 1) ≤ s := by
    rw [hsd, le_div_iff₀ hQpos, hQd, ← zpow_add₀ (two_ne_zero : (2 : ℚ) ≠ 0)]
    rw [show p - 1 + (e + 1 - p) = e from by ring]
    exact heb1
  have hs2 : s < 2 ^ p := by
    rw [hsd, div_lt_iff₀ hQpos, hQd, ← zpow_add₀ (two_ne_zero : (2 : ℚ) ≠ 0)]
    rw [show p + (e + 1 - p) = e + 1 from by ring]
    exact heb2
  have habs := rhe_abs s
  have habs' := abs_le.mp habs
  have hpow1 : (1 : ℚ) ≤ 2 ^ (p - 1) := by
    calc (1 : ℚ) = 2 ^ (0 : ℤ) := by norm_num
    _ ≤ 2 ^ (p - 1) := zpow_le_zpow_right₀ one_le_two (by omega)
  have hrlow : (1 : ℚ) / 2 ≤ (rhe s : ℚ) := by linarith [habs'.1]
  have hrpos : (0 : ℚ) < (rhe s : ℚ) := by linarith
  have hmf : maxFinite F = ((2 : ℚ) ^ p - 1) * (2 : ℚ) ^ (F.emax + 1 - p) := by
    unfold maxFinite
    rw [pow2_eq F.prec (by omega), zpow2_eq _ (by rw [h64]; omega),
      ← zpow_natCast (2 : ℚ) F.prec]
  refine ⟨mul_pos hrpos hQpos, ?_, ?_⟩
  · -- below the overflow threshold
    set P : ℤ := 2 ^ F.prec with hPd
    have hPc : ((P : ℚ)) = 2 ^ p := by
      rw [hPd]; push_cast
      exact (zpow_natCast (2 : ℚ) F.prec).symm
    have hup : (rhe s : ℚ) < (P : ℚ) + 1 / 2 := by
      rw [hPc]; linarith [habs'.2, hs2]
    have hupZ : rhe s ≤ P := by
      have h1 : (rhe s : ℚ) < ((P + 1 : ℤ) : ℚ) := by push_cast; linarith
      have h2 : rhe s < P + 1 := by exact_mod_cast h1
      omega
    rcases eq_or_lt_of_le hupZ with heqP | hltP
    · rcases eq_or_lt_of_le hee with heq2 | hlt2
      · exfalso
        have hqe : q = 2 ^ F.emax := le_antisymm hhi (by rw [← heq2]; exact heb1)
        have hsv : s = 2 ^ (p - 1) := by
          rw [hsd, hqe, hQd, div_eq_iff (ne_of_gt (zpow_pos two_pos _)),
            ← zpow_add₀ (two_ne_zero : (2 : ℚ) ≠ 0)]
          congr 1
          rw [← heq2]; ring
        have hcast : s = ((2 ^ (F.prec - 1) : ℤ) : ℚ) := by
          rw [hsv]; push_cast
          rw [← zpow_natCast (2 : ℚ) (F.prec - 1)]
          congr 1
          omega
        have hrv : rhe s = 2 ^ (F.prec - 1) := by rw [hcast]; exact rhe_intCast _
        have hppow : (2 : ℤ) ^ (F.prec - 1) < 2 ^ F.prec :=
          pow_lt_pow_right₀ one_lt_two (by omega)
        rw [hrv] at heqP
        rw [hPd] at heqP
        omega
      · have hrQ : ((rhe s : ℚ)) = (P : ℚ) := by exact_mod_cast heqP
        calc (rhe s : ℚ) * Q = 2 ^ p * 2 ^ (e + 1 - p) := by rw [hrQ, hPc, hQd]
        _ = 2 ^ (e + 1) := by
            rw [← zpow_add₀ (two_ne_zero : (2 : ℚ) ≠ 0)]
            congr 1; ring
        _ ≤ 2 ^ F.emax := zpow_le_zpow_right₀ one_le_two (by omega)
        _ ≤ maxFinite F := by
            rw [hmf]
            have hdouble : (2 : ℚ) ^ p = 2 ^ (p - 1) * 2 := by
              rw [← zpow_add_one₀ (two_ne_zero : (2 : ℚ) ≠ 0) (p - 1)]
              congr 1; ring
            have h1 : (2 : ℚ) ^ (p - 1) ≤ 2 ^ p - 1 := by linarith
            calc (2 : ℚ) ^ F.emax = 2 ^ (p - 1) * 2 ^ (F.emax + 1 - p) := by
                  rw [← zpow_add₀ (two_ne_zero : (2 : ℚ) ≠ 0)]
                  congr 1; ring
            _ ≤ (2 ^ p - 1) * 2 ^ (F.emax + 1 - p) :=
                mul_le_mul_of_nonneg_right h1 (le_of_lt (zpow_pos two_pos _))
    · have hle : rhe s ≤ P - 1 := by omega
      have hleQ : (rhe s : ℚ) ≤ (P : ℚ) - 1 := by exact_mod_cast hle
      have hP1 : (0 : ℚ) ≤ (P : ℚ) - 1 := by
        rw [hPc]
        have : (1 : ℚ) ≤ 2 ^ p :=
          le_trans hpow1 (zpow_le_zpow_right₀ one_le_two (by omega))
        linarith
      calc (rhe s : ℚ) * Q ≤ ((P : ℚ) - 1) * Q :=
            mul_le_mul_of_nonneg_right hleQ (le_of_lt hQpos)
      _ ≤ ((P : ℚ) - 1) * 2 ^ (F.emax + 1 - p) := by
          apply mul_le_mul_of_nonneg_left _ hP1
          rw [hQd]
          exact zpow_le_zpow_right₀ one_le_two (by omega)
      _ = maxFinite F := by rw [hmf, hPc]
  · -- relative error bound
    have hsQ : s * Q = q := by
      rw [hsd]
      field_simp
    have h1 : (rhe s : ℚ) * Q - q = ((rhe s : ℚ) - s) * Q := by
      rw [sub_mul, hsQ]
    rw [h1, abs_mul, abs_of_pos hQpos]
    calc |(rhe s : ℚ) - s| * Q ≤ (1 / 2) * Q :=
          mul_le_mul_of_nonneg_right habs (le_of_lt hQpos)
    _ = 2 ^ (e - p) := by
        rw [hQd, show (1 : ℚ) / 2 = 2 ^ (-1 : ℤ) from by norm_num,
          ← zpow_add₀ (two_ne_zero : (2 : ℚ) ≠ 0)]
        congr 1; ring
    _ = 2 ^ (-p) * 2 ^ e := by
        rw [← zpow_add₀ (two_ne_zero : (2 : ℚ) ≠ 0)]
        congr 1; ring
    _ ≤ 2 ^ (-p) * q := mul_le_mul_of_nonneg_left heb1 (le_of_lt (zpow_pos two_pos _))

/-- When the rounded magnitude does not overflow, `finMag` yields the
finite float with that rounded magnitude. -/
theorem finMag_eq (F : FpFmt) (s : Bool) (q : ℚ)
    (hle : rndPos F q ≤ maxFinite F) : finMag F s q = .fin s (rndPos F q) := by
  unfold finMag
  rw [if_neg (not_lt.mpr hle)]

/-- Multiplication of finite floats rounds the exact product. -/
theorem fmul_fin (F : FpFmt) (s t : Bool) (m n : ℚ) :
    fmul F (.fin s m) (.fin t n) = finMag F (xor s t) (m * n) := rfl

/-- Two roundings with factors `c1`, `c2` whose product is close to `1`:
the generic error analysis behind the degree/radian round trip.  The
hypothesis `hKb` is checked by computation at each instantiation. -/
theorem roundtrip_err (F : FpFmt) (hp1 : 1 ≤ F.prec) (hp2 : F.prec ≤ 100)
    (he1 : 120 ≤ F.emax) (he2 : F.emax ≤ 2000)
    (c1 c2 : ℚ)
    (hc1l : (2 : ℚ) ^ (5 : ℤ) ≤ c1) (hc1h : c1 ≤ (2 : ℚ) ^ (6 : ℤ))
    (hc2l : (2 : ℚ) ^ (-6 : ℤ) ≤ c2) (hc2h : c2 ≤ (2 : ℚ) ^ (-5 : ℤ))
    (hKb : (2 : ℚ) ^ (-(F.prec : ℤ)) * (1 + 2 ^ (-(F.prec : ℤ))) * (c1 * c2) +
      2 ^ (-(F.prec : ℤ)) * (c1 * c2) + |c1 * c2 - 1| ≤ 4 * 2 ^ (-(F.prec : ℤ)))
    (m : ℚ) (hm1 : (2 : ℚ) ^ (-100 : ℤ) ≤ m) (hm2 : m ≤ (2 : ℚ) ^ (100 : ℤ)) :
    0 < rndPos F (m * c1) ∧ rndPos F (m * c1) ≤ maxFinite F ∧
    0 < rndPos F (rndPos F (m * c1) * c2) ∧
    rndPos F (rndPos F (m * c1) * c2) ≤ maxFinite F ∧
    |rndPos F (rndPos F (m * c1) * c2) - m| ≤ 4 * 2 ^ (-(F.prec : ℤ)) * m := by
  set p : ℤ := (F.prec : ℤ) with hpd
  have hp1' : (1 : ℤ) ≤ p := by rw [hpd]; exact_mod_cast hp1
  set u : ℚ := 2 ^ (-p) with hud
  have hu0 : (0 : ℚ) < u := zpow_pos two_pos _
  have hu2 : u ≤ 1 / 2 := by
    rw [hud, show (1 : ℚ) / 2 = 2 ^ (-1 : ℤ) from by norm_num]
    exact zpow_le_zpow_right₀ one_le_two (by omega)
  have hm0 : (0 : ℚ) < m := lt_of_lt_of_le (zpow_pos two_pos _) hm1
  have hc10 : (0 : ℚ) < c1 := lt_of_lt_of_le (zpow_pos two_pos _) hc1l
  have hc20 : (0 : ℚ) < c2 := lt_of_lt_of_le (zpow_pos two_pos _) hc2l
  set q1 : ℚ := m * c1 with hq1d
  have hq1l : (2 : ℚ) ^ (-95 : ℤ) ≤ q1 := by
    calc (2 : ℚ) ^ (-95 : ℤ) = 2 ^ (-100 : ℤ) * 2 ^ (5 : ℤ) := by
          rw [← zpow_add₀ (two_ne_zero : (2 : ℚ) ≠ 0)]; norm_num
    _ ≤ m * c1 :=
        mul_le_mul hm1 hc1l (le_of_lt (zpow_pos two_pos _))
          (le_trans (le_of_lt (zpow_pos two_pos _)) hm1)
  have hq1h : q1 ≤ (2 : ℚ) ^ (106 : ℤ) := by
    calc q1 = m * c1 := hq1d
    _ ≤ 2 ^ (100 : ℤ) * 2 ^ (6 : ℤ) :=
        mul_le_mul hm2 hc1h (le_of_lt hc10) (le_of_lt (zpow_pos two_pos _))
    _ = (2 : ℚ) ^ (106 : ℤ) := by
        rw [← zpow_add₀ (two_ne_zero : (2 : ℚ) ≠ 0)]; norm_num
  obtain ⟨hr1pos, hr1max, hr1err⟩ :=
    rndPos_spec F hp1 hp2 (by omega) he2 q1
      (le_trans (zpow_le_zpow_right₀ one_le_two (by omega)) hq1l)
      (le_trans hq1h (zpow_le_zpow_right₀ one_le_two (by omega)))
  set r1 : ℚ := rndPos F q1 with hr1d
  have hr1e := abs_le.mp hr1err
  have hq10 : (0 : ℚ) < q1 := mul_pos hm0 hc10
  have hup : (2 : ℚ) ^ (-(F.prec : ℤ)) = u := by rw [hud]
  have hr1up : r1 ≤ (1 + u) * q1 := by
    have h2 := hr1e.2
    rw [hup] at h2
    linarith
  have hr1lo : (1 - u) * q1 ≤ r1 := by
    have h2 := hr1e.1
    rw [hup] at h2
    linarith
  have hr1l : (2 : ℚ) ^ (-96 : ℤ) ≤ r1 := by
    have h1 : (1 : ℚ) / 2 * q1 ≤ (1 - u) * q1 :=
      mul_le_mul_of_nonneg_right (by linarith) (le_of_lt hq10)
    calc (2 : ℚ) ^ (-96 : ℤ) = 1 / 2 * 2 ^ (-95 : ℤ) := by
          rw [show (1 : ℚ) / 2 = 2 ^ (-1 : ℤ) from by norm_num,
            ← zpow_add₀ (two_ne_zero : (2 : ℚ) ≠ 0)]
          norm_num
    _ ≤ 1 / 2 * q1 := mul_le_mul_of_nonneg_left hq1l (by norm_num)
    _ ≤ r1 := le_trans h1 hr1lo
  have hr1h : r1 ≤ (2 : ℚ) ^ (107 : ℤ) := by
    have h1 : (1 + u) * q1 ≤ 2 * q1 :=
      mul_le_mul_of_nonneg_right (by linarith) (le_of_lt hq10)
    calc r1 ≤ (1 + u) * q1 := hr1up
    _ ≤ 2 * q1 := h1
    _ ≤ 2 * 2 ^ (106 : ℤ) := mul_le_mul_of_nonneg_left hq1h (by norm_num)
    _ = (2 : ℚ) ^ (107 : ℤ) := by
        rw [show (107 : ℤ) = 106 + 1 from by norm_num,
          zpow_add_one₀ (two_ne_zero : (2 : ℚ) ≠ 0)]
        ring
  set q2 : ℚ := r1 * c2 with hq2d
  have hq2l : (2 : ℚ) ^ (-102 : ℤ) ≤ q2 := by
    calc (2 : ℚ) ^ (-102 : ℤ) = 2 ^ (-96 : ℤ) * 2 ^ (-6 : ℤ) := by
          rw [← zpow_add₀ (two_ne_zero : (2 : ℚ) ≠ 0)]; norm_num
    _ ≤ r1 * c2 :=
        mul_le_mul hr1l hc2l (le_of_lt (zpow_pos two_pos _))
          (le_trans (le_of_lt (zpow_pos two_pos _)) hr1l)
  have hq2h : q2 ≤ (2 : ℚ) ^ (102 : ℤ) := by
    calc q2 = r1 * c2 := hq2d
    _ ≤ 2 ^ (107 : ℤ) * 2 ^ (-5 : ℤ) :=
        mul_le_mul hr1h hc2h (le_of_lt hc20) (le_of_lt (zpow_pos two_pos _))
    _ = (2 : ℚ) ^ (102 : ℤ) := by
        rw [← zpow_add₀ (two_ne_zero : (2 : ℚ) ≠ 0)]; norm_num
  obtain ⟨hr2pos, hr2max, hr2err⟩ :=
    rndPos_spec F hp1 hp2 (by omega) he2 q2
      (le_trans (zpow_le_zpow_right₀ one_le_two (by omega)) hq2l)
      (le_trans hq2h (zpow_le_zpow_right₀ one_le_two (by omega)))
  set r2 : ℚ := rndPos F q2 with hr2d
  refine ⟨hr1pos, hr1max, hr2pos, hr2max, ?_⟩
  have hq20 : (0 : ℚ) < q2 := mul_pos (lt_of_lt_of_le (zpow_pos two_pos _) hr1l) hc20
  have t1 : |r2 - q2| ≤ u * ((1 + u) * q1 * c2) := by
    calc |r2 - q2| ≤ u * q2 := hr2err
    _ = u * (r1 * c2) := by rw [hq2d]
    _ ≤ u * ((1 + u) * q1 * c2) := by
        apply mul_le_mul_of_nonneg_left _ (le_of_lt hu0)
        exact mul_le_mul_of_nonneg_right hr1up (le_of_lt hc20)
  have t2 : |q2 - q1 * c2| ≤ u * q1 * c2 := by
    calc |q2 - q1 * c2| = |r1 - q1| * c2 := by
          rw [hq2d, show r1 * c2 - q1 * c2 = (r1 - q1) * c2 from by ring,
            abs_mul, abs_of_pos hc20]
    _ ≤ u * q1 * c2 := mul_le_mul_of_nonneg_right hr1err (le_of_lt hc20)
  have t3 : |q1 * c2 - m| = m * |c1 * c2 - 1| := by
    rw [hq1d, show m * c1 * c2 - m = m * (c1 * c2 - 1) from by ring,
      abs_mul, abs_of_pos hm0]
  have htri : |r2 - m| ≤ |r2 - q2| + |q2 - q1 * c2| + |q1 * c2 - m| := by
    calc |r2 - m| ≤ |r2 - q2| + |q2 - m| := abs_sub_le r2 q2 m
    _ ≤ |r2 - q2| + (|q2 - q1 * c2| + |q1 * c2 - m|) := by
        have := abs_sub_le q2 (q1 * c2) m
        linarith
    _ = |r2 - q2| + |q2 - q1 * c2| + |q1 * c2 - m| := by ring
  have hsum : |r2 - m| ≤
      (u * (1 + u) * (c1 * c2) + u * (c1 * c2) + |c1 * c2 - 1|) * m := by
    have h1 : u * ((1 + u) * q1 * c2) = u * (1 + u) * (c1 * c2) * m := by
      rw [hq1d]; ring
    have h2 : u * q1 * c2 = u * (c1 * c2) * m := by rw [hq1d]; ring
    have h3 : m * |c1 * c2 - 1| = |c1 * c2 - 1| * m := by ring
    calc |r2 - m| ≤ |r2 - q2| + |q2 - q1 * c2| + |q1 * c2 - m| := htri
    _ ≤ u * ((1 + u) * q1 * c2) + u * q1 * c2 + m * |c1 * c2 - 1| := by
        rw [t3]; linarith
    _ = (u * (1 + u) * (c1 * c2) + u * (c1 * c2) + |c1 * c2 - 1|) * m := by
        rw [h1, h2, h3]; ring
  calc |r2 - m| ≤
      (u * (1 + u) * (c1 * c2) + u * (c1 * c2) + |c1 * c2 - 1|) * m := hsum
  _ ≤ (4 * u) * m := mul_le_mul_of_nonneg_right hKb (le_of_lt hm0)
  _ = 4 * 2 ^ (-p) * m := by rw [hud]

/-- The degree/radian round trip on the facade functions: for a finite
input of magnitude in `[2 ^ (-100), 2 ^ 100]` the result is finite, keeps
the sign, and is within relative error `4 · 2 ^ (-prec)`. -/
theorem roundtrip_facade (F : FpFmt) (hp1 : 1 ≤ F.prec) (hp2 : F.prec ≤ 100)
    (he1 : 120 ≤ F.emax) (he2 : F.emax ≤ 2000)
    (hc1l : (2 : ℚ) ^ (5 : ℤ) ≤ radToDegFactor F)
    (hc1h : radToDegFactor F ≤ (2 : ℚ) ^ (6 : ℤ))
    (hc2l : (2 : ℚ) ^ (-6 : ℤ) ≤ degToRadFactor F)
    (hc2h : degToRadFactor F ≤ (2 : ℚ) ^ (-5 : ℤ))
    (hKb : (2 : ℚ) ^ (-(F.prec : ℤ)) * (1 + 2 ^ (-(F.prec : ℤ))) *
        (radToDegFactor F * degToRadFactor F) +
      2 ^ (-(F.prec : ℤ)) * (radToDegFactor F * degToRadFactor F) +
      |radToDegFactor F * degToRadFactor F - 1| ≤ 4 * 2 ^ (-(F.prec : ℤ)))
    (hdiv1 : fdiv F (fpOfLit F 180) (fpOfLit F piLit) = .fin false (radToDegFactor F))
    (hdiv2 : fdiv F (fpOfLit F piLit) (fpOfLit F 180) = .fin false (degToRadFactor F))
    (s : Bool) (m : ℚ)
    (hm1 : (2 : ℚ) ^ (-100 : ℤ) ≤ m) (hm2 : m ≤ (2 : ℚ) ^ (100 : ℤ)) :
    ∃ r : ℚ, deg_to_rad F (rad_to_deg F (.fin s m)) = .fin s r ∧
      |r - m| ≤ 4 * 2 ^ (-(F.prec : ℤ)) * m := by
  obtain ⟨h1p, h1m, h2p, h2m, herr⟩ :=
    roundtrip_err F hp1 hp2 he1 he2 (radToDegFactor F) (degToRadFactor F)
      hc1l hc1h hc2l hc2h hKb m hm1 hm2
  refine ⟨rndPos F (rndPos F (m * radToDegFactor F) * degToRadFactor F), ?_, herr⟩
  unfold rad_to_deg deg_to_rad
  rw [hdiv1, fmul_fin, Bool.xor_false, finMag_eq F s _ h1m, hdiv2, fmul_fin,
    Bool.xor_false, finMag_eq F s _ h2m]

theorem feq_refl (a : Fp) (ha : a ≠ .nan) : feq a a = true := by
  cases a with
  | nan => exact absurd rfl ha
  | inf s => simp [feq]
  | fin s m => simp [feq]

theorem feq_symm (a b : Fp) (h : feq a b = true) : feq b a = true := by
  cases a <;> cases b <;> simp_all [feq]

theorem flt_asymm (a b : Fp) (h : flt a b = true) : flt b a = false := by
  cases a with
  | nan => simp [flt] at h
  | inf s =>
    cases b with
    | nan => simp [flt] at h
    | inf t => revert h; cases s <;> cases t <;> simp [flt]
    | fin t n => revert h; cases s <;> simp [flt]
  | fin s m =>
    cases b with
    | nan => simp [flt] at h
    | inf t => revert h; cases t <;> simp [flt]
    | fin t n =>
      simp only [flt, decide_eq_true_eq] at h
      simp only [flt]
      exact decide_eq_false (not_lt.mpr (le_of_lt h))

theorem flt_conn (a b : Fp) (ha : a ≠ .nan) (hb : b ≠ .nan)
    (h1 : flt a b = false) (h2 : flt b a = false) : feq a b = true := by
  cases a with
  | nan => exact absurd rfl ha
  | inf s =>
    cases b with
    | nan => exact absurd rfl hb
    | inf t => revert h1 h2; cases s <;> cases t <;> simp [flt, feq]
    | fin t n => revert h1 h2; cases s <;> simp [flt, feq]
  | fin s m =>
    cases b with
    | nan => exact absurd rfl hb
    | inf t => revert h1 h2; cases t <;> simp [flt, feq]
    | fin t n =>
      simp only [flt, decide_eq_false_iff_not, not_lt] at h1 h2
      simp only [feq]
      exact decide_eq_true (le_antisymm h2 h1)

theorem wfb_finMag (F : FpFmt) (s : Bool) (q : ℚ) : wfb (finMag F s q) = true := by
  unfold finMag
  simp only []
  split_ifs with h
  · rfl
  · simp only [wfb]
    exact decide_eq_true (rndPos_nonneg F q)

theorem wfb_fmul (F : FpFmt) (a b : Fp) : wfb (fmul F a b) = true := by
  cases a with
  | nan => cases b <;> rfl
  | inf s =>
    cases b with
    | nan => rfl
    | inf t => rfl
    | fin t m => simp only [fmul]; split_ifs <;> rfl
  | fin s m =>
    cases b with
    | nan => rfl
    | inf t => simp only [fmul]; split_ifs <;> rfl
    | fin t n => exact wfb_finMag F _ _

theorem wfb_fdiv (F : FpFmt) (a b : Fp) : wfb (fdiv F a b) = true := by
  cases a with
  | nan => cases b <;> rfl
  | inf s =>
    cases b with
    | nan => rfl
    | inf t => rfl
    | fin t m => rfl
  | fin s m =>
    cases b with
    | nan => rfl
    | inf t => simp [fdiv, wfb]
    | fin t n =>
      simp only [fdiv]
      split_ifs <;> first | rfl | exact wfb_finMag F _ _

theorem wfb_fmin (a b : Fp) (ha : wfb a = true) (hb : wfb b = true) :
    wfb (fmin a b) = true := by
  unfold fmin
  split_ifs <;> assumption

theorem wfb_fmax (a b : Fp) (ha : wfb a = true) (hb : wfb b = true) :
    wfb (fmax a b) = true := by
  unfold fmax
  split_ifs <;> assumption

theorem wfb_signum (a : Fp) : wfb (signum a) = true := by
  cases a <;> simp [signum, wfb]

theorem wfb_cast_f64_f32 (x : Fp) : wfb (cast_f64_f32 x) = true := by
  cases x with
  | nan => rfl
  | inf s => rfl
  | fin s m => exact wfb_finMag binary32 _ _

theorem wfb_intToFp (F : FpFmt) (t : ℤ) : wfb (intToFp F t) = true :=
  wfb_finMag F _ _

/-- C1: Every operation of the facade (min, max, signum, powf, sqrt, all
Trig functions, the Radians constants and conversions, one, zero, cast and
every FromPrimitive conversion) is total for both widths: for every
well-formed input (and any well-formedness-preserving native bundle) each
operation returns a value of the width and never raises a failure; domain
errors can only surface as NaN or infinity, which are ordinary values of
the embedding. -/
theorem C1_facade_total (N : NativeFns) (hN : wfN N) (x y : Fp)
    (hx : wfb x = true) (hy : wfb y = true) (t : ℤ) (u : ℕ) :
    TotalityAt N x y t u := by
  obtain ⟨hsin, hcos, htan, hasin, hacos, hatan, hsinh, hcosh, htanh,
    hasinh, hacosh, hatanh, hsqrt, hatan2, hpowf⟩ := hN
  refine ⟨wfb_fmin x y hx hy, wfb_fmax x y hx hy, wfb_signum x,
    hpowf x y hx hy, hsqrt x hx,
    hsin x hx, hcos x hx, htan x hx, hasin x hx, hacos x hx, hatan x hx,
    hatan2 x y hx hy, hsinh x hx, hcosh x hx, htanh x hx, hasinh x hx,
    hacosh x hx, hatanh x hx, ?_, hx, hx, hx, wfb_cast_f64_f32 x,
    hx, hx, wfb_intToFp binary64 t, wfb_finMag binary64 false _,
    wfb_intToFp binary64 t,
    wfb_cast_f64_f32 x, hx, wfb_intToFp binary32 t,
    wfb_finMag binary32 false _, wfb_intToFp binary32 t⟩
  intro F
  exact ⟨wfb_finMag F false _, wfb_finMag F false _, wfb_fmul F _ _,
    wfb_fmul F _ _, wfb_fmul F _ _, wfb_finMag F false _, wfb_finMag F false _⟩

/-- Witness for C1: the totality conjunction evaluated at the identity
native bundle and concrete inputs. -/
theorem C1_facade_total_witness :
    wfN natId ∧ wfb (.fin false 1) = true ∧ wfb (.fin true 2) = true ∧
    TotalityAt natId (.fin false 1) (.fin true 2) (-5) 7 := by
  have hN : wfN natId := by
    refine ⟨?_, ?_, ?_, ?_, ?_, ?_, ?_, ?_, ?_, ?_, ?_, ?_, ?_, ?_, ?_⟩ <;>
      first
        | exact fun x hx => hx
        | exact fun x y hx hy => hx
  refine ⟨hN, by decide, by decide,
    C1_facade_total natId hN (.fin false 1) (.fin true 2) (by decide) (by decide) (-5) 7⟩

unseal Rat.mul Rat.inv Rat.add Rat.sub in
/-- C2, counterexample: the unrestricted round-trip claim fails.  At NaN
the round trip returns NaN, which is not within any epsilon of NaN; and at
the finite value `1000000` (exactly representable in both widths) the
round trip differs from the input by more than the width's machine
epsilon, refuting the absolute-error reading for every `x`. -/
theorem C2_roundtrip_cex :
    withinEpsB (fpEps binary32)
      (deg_to_rad binary32 (rad_to_deg binary32 .nan)) .nan = false ∧
    withinEpsB (fpEps binary32)
      (deg_to_rad binary32 (rad_to_deg binary32 (.fin false 1000000)))
      (.fin false 1000000) = false ∧
    withinEpsB (fpEps binary64)
      (deg_to_rad binary64 (rad_to_deg binary64 (.fin false 1000000)))
      (.fin false 1000000) = false := by
  refine ⟨by decide, by decide, by decide⟩

unseal Rat.mul Rat.inv Rat.add Rat.sub in
/-- C2, amended: for every finite `x = ±m` of either width with
`2 ^ (-100) ≤ m ≤ 2 ^ 100`, `deg_to_rad (rad_to_deg x)` is finite, keeps
the sign of `x`, and is within `2 · ε · m` of `x` (relative error at most
twice the machine epsilon of the width). -/
theorem C2_roundtrip_amended :
    (∀ (s : Bool) (m : ℚ), (2 : ℚ) ^ (-100 : ℤ) ≤ m → m ≤ (2 : ℚ) ^ (100 : ℤ) →
      ∃ r : ℚ, deg_to_rad binary32 (rad_to_deg binary32 (.fin s m)) = .fin s r ∧
        |r - m| ≤ 2 * fpEps binary32 * m) ∧
    (∀ (s : Bool) (m : ℚ), (2 : ℚ) ^ (-100 : ℤ) ≤ m → m ≤ (2 : ℚ) ^ (100 : ℤ) →
      ∃ r : ℚ, deg_to_rad binary64 (rad_to_deg binary64 (.fin s m)) = .fin s r ∧
        |r - m| ≤ 2 * fpEps binary64 * m) := by
  constructor <;> intro s m hm1 hm2
  · have heps : 2 * fpEps binary32 = 4 * 2 ^ (-(binary32.prec : ℤ)) := by decide
    obtain ⟨r, hr, herr⟩ :=
      roundtrip_facade binary32 (by decide) (by decide) (by decide) (by decide)
        (by decide) (by decide) (by decide) (by decide) (by decide)
        (by decide) (by decide) s m hm1 hm2
    exact ⟨r, hr, by rw [heps]; exact herr⟩
  · have heps : 2 * fpEps binary64 = 4 * 2 ^ (-(binary64.prec : ℤ)) := by decide
    obtain ⟨r, hr, herr⟩ :=
      roundtrip_facade binary64 (by decide) (by decide) (by decide) (by decide)
        (by decide) (by decide) (by decide) (by decide) (by decide)
        (by decide) (by decide) s m hm1 hm2
    exact ⟨r, hr, by rw [heps]; exact herr⟩

unseal Rat.mul Rat.inv Rat.add Rat.sub in
/-- Witness for the amended C2 at the input `1.0` in both widths. -/
theorem C2_roundtrip_amended_witness :
    ((2 : ℚ) ^ (-100 : ℤ) ≤ 1 ∧ (1 : ℚ) ≤ (2 : ℚ) ^ (100 : ℤ)) ∧
    (∃ r : ℚ, deg_to_rad binary32 (rad_to_deg binary32 (.fin false 1)) = .fin false r ∧
      |r - 1| ≤ 2 * fpEps binary32 * 1) ∧
    (∃ r : ℚ, deg_to_rad binary64 (rad_to_deg binary64 (.fin false 1)) = .fin false r ∧
      |r - 1| ≤ 2 * fpEps binary64 * 1) := by
  have h1 : (2 : ℚ) ^ (-100 : ℤ) ≤ 1 := by decide
  have h2 : (1 : ℚ) ≤ (2 : ℚ) ^ (100 : ℤ) := by decide
  exact ⟨⟨h1, h2⟩, C2_roundtrip_amended.1 false 1 h1 h2,
    C2_roundtrip_amended.2 false 1 h1 h2⟩

unseal Rat.mul Rat.inv Rat.add Rat.sub in
/-- C3: for both widths the quarter-turn constant `_90()` (the native
`FRAC_PI_2` constant) coincides exactly with `_180() / 2`, both as the very
same float and under float equality. -/
theorem C3_quarter_turn :
    (Radians90 binary32 = fdiv binary32 (Radians180 binary32) (fpOfLit binary32 2) ∧
      feq (Radians90 binary32)
        (fdiv binary32 (Radians180 binary32) (fpOfLit binary32 2)) = true) ∧
    (Radians90 binary64 = fdiv binary64 (Radians180 binary64) (fpOfLit binary64 2) ∧
      feq (Radians90 binary64)
        (fdiv binary64 (Radians180 binary64) (fpOfLit binary64 2)) = true) := by
  refine ⟨⟨by decide, by decide⟩, ⟨by decide, by decide⟩⟩

/-- C4, counterexample: casting a width to itself is the identity on
values, but under float equality `cast(x) == x` fails at `x = NaN`, since
NaN compares unequal to itself. -/
theorem C4_cast_cex :
    feq (cast_f32_f32 .nan) .nan = false ∧ feq (cast_f64_f64 .nan) .nan = false :=
  ⟨rfl, rfl⟩

/-- C4, amended: casting a width to itself returns the identical value for
every input (NaN included), and therefore satisfies `cast(x) == x` under
float equality for every non-NaN `x`, infinities included. -/
theorem C4_cast_id (x : Fp) :
    cast_f32_f32 x = x ∧ cast_f64_f64 x = x ∧
    (x ≠ .nan → feq (cast_f32_f32 x) x = true ∧ feq (cast_f64_f64 x) x = true) :=
  ⟨rfl, rfl, fun hx => ⟨feq_refl x hx, feq_refl x hx⟩⟩

/-- Witness for the amended C4 at a concrete finite value. -/
theorem C4_cast_id_witness :
    (Fp.fin false 3 ≠ .nan) ∧
    (cast_f32_f32 (.fin false 3) = .fin false 3 ∧
      cast_f64_f64 (.fin false 3) = .fin false 3 ∧
      ((Fp.fin false 3) ≠ .nan →
        feq (cast_f32_f32 (.fin false 3)) (.fin false 3) = true ∧
        feq (cast_f64_f64 (.fin false 3)) (.fin false 3) = true)) :=
  ⟨by decide, C4_cast_id (.fin false 3)⟩

/-- C5: for all non-NaN `a`, `b` of either width, `min` and `max` are
commutative under float equality and `min(a,b) <= max(a,b)`. -/
theorem C5_minmax (a b : Fp) (ha : a ≠ .nan) (hb : b ≠ .nan) :
    feq (fmin a b) (fmin b a) = true ∧ feq (fmax a b) (fmax b a) = true ∧
    fle (fmin a b) (fmax a b) = true := by
  have hmin1 : fmin a b = if flt a b then a else b := by
    unfold fmin; rw [if_neg ha, if_neg hb]
  have hmin2 : fmin b a = if flt b a then b else a := by
    unfold fmin; rw [if_neg hb, if_neg ha]
  have hmax1 : fmax a b = if flt a b then b else a := by
    unfold fmax; rw [if_neg ha, if_neg hb]
  have hmax2 : fmax b a = if flt b a then a else b := by
    unfold fmax; rw [if_neg hb, if_neg ha]
  by_cases h1 : flt a b = true
  · have h2 : flt b a = false := flt_asymm a b h1
    rw [hmin1, hmin2, hmax1, hmax2, h1, h2]
    simp only [if_true, if_false, ite_true, ite_false, Bool.false_eq_true]
    exact ⟨feq_refl a ha, feq_refl b hb, by simp [fle, h1]⟩
  · by_cases h2 : flt b a = true
    · have h1f : flt a b = false := flt_asymm b a h2
      rw [hmin1, hmin2, hmax1, hmax2, h1f, h2]
      simp only [if_true, if_false, ite_true, ite_false, Bool.false_eq_true]
      exact ⟨feq_refl b hb, feq_refl a ha, by simp [fle, h2]⟩
    · have h1f : flt a b = false := by revert h1; cases flt a b <;> simp
      have h2f : flt b a = false := by revert h2; cases flt b a <;> simp
      have heq := flt_conn a b ha hb h1f h2f
      rw [hmin1, hmin2, hmax1, hmax2, h1f, h2f]
      simp only [if_true, if_false, ite_true, ite_false, Bool.false_eq_true]
      exact ⟨feq_symm a b heq, heq, by simp [fle, feq_symm a b heq]⟩

/-- Witness for C5 at concrete non-NaN inputs. -/
theorem C5_minmax_witness :
    (Fp.fin false 3 ≠ .nan) ∧ (Fp.fin true 5 ≠ .nan) ∧
    (feq (fmin (.fin false 3) (.fin true 5)) (fmin (.fin true 5) (.fin false 3)) = true ∧
     feq (fmax (.fin false 3) (.fin true 5)) (fmax (.fin true 5) (.fin false 3)) = true ∧
     fle (fmin (.fin false 3) (.fin true 5)) (fmax (.fin false 3) (.fin true 5)) = true) :=
  ⟨by decide, by decide, C5_minmax (.fin false 3) (.fin true 5) (by decide) (by decide)⟩

unseal Rat.mul Rat.inv Rat.add Rat.sub in
/-- C6: for both widths the full-turn constant is computed as
`_180() * 2.0`, equals the float-commuted product `2.0 * _180()`, and its
value is exactly twice the value of the half-turn constant. -/
theorem C6_full_turn :
    (Radians360 binary32 = fmul binary32 (fpOfLit binary32 2) (Radians180 binary32) ∧
      val (Radians360 binary32) = (val (Radians180 binary32)).map (fun q => 2 * q)) ∧
    (Radians360 binary64 = fmul binary64 (fpOfLit binary64 2) (Radians180 binary64) ∧
      val (Radians360 binary64) = (val (Radians180 binary64)).map (fun q => 2 * q)) := by
  refine ⟨⟨by decide, by decide⟩, ⟨by decide, by decide⟩⟩

unseal Rat.mul Rat.inv Rat.add Rat.sub in
/-- C7: for both widths the half-turn constant `_180()` is exactly the
width's native π constant (the correctly rounded π literal, whose exact
values are `13176795 / 2^22` and `884279719003555 / 2^48`), and those
values lie within half an ulp (`2^-22`, resp. `2^-52`) of the real π. -/
theorem C7_half_turn :
    (Radians180 binary32 = fpOfLit binary32 piLit ∧
      Radians180 binary32 = .fin false (13176795 / 4194304)) ∧
    (Radians180 binary64 = fpOfLit binary64 piLit ∧
      Radians180 binary64 = .fin false (884279719003555 / 281474976710656)) ∧
    |(13176795 / 4194304 : ℝ) - Real.pi| < 2 ^ (-22 : ℤ) ∧
    |(884279719003555 / 281474976710656 : ℝ) - Real.pi| < 2 ^ (-52 : ℤ) := by
  refine ⟨⟨rfl, by decide⟩, ⟨rfl, by decide⟩, ?_, ?_⟩
  · have h1 := Real.pi_gt_d20
    have h2 := Real.pi_lt_d20
    rw [abs_lt]
    norm_num at h1 h2 ⊢
    constructor <;> linarith
  · have h1 := Real.pi_gt_d20
    have h2 := Real.pi_lt_d20
    rw [abs_lt]
    norm_num at h1 h2 ⊢
    constructor <;> linarith

/-- C8: for both widths and every input, `deg_to_rad(a)` is exactly the
float product of `a` with the float quotient `_180() / 180.0`, the code's
`a * (PI / 180.0)`. -/
theorem C8_deg_to_rad (a : Fp) :
    deg_to_rad binary32 a =
      fmul binary32 a (fdiv binary32 (Radians180 binary32) (fpOfLit binary32 180)) ∧
    deg_to_rad binary64 a =
      fmul binary64 a (fdiv binary64 (Radians180 binary64) (fpOfLit binary64 180)) :=
  ⟨rfl, rfl⟩

/-- C9: for every well-formed value, `signum` returns one of `+1`, `-1` or
NaN (hence lands in the claim's value set `{+1, -1, 0, NaN}`), and it
indicates the sign: positive inputs give `+1`, negative inputs give `-1`,
and NaN is returned exactly on NaN. -/
theorem C9_signum (a : Fp) (ha : wfb a = true) :
    (signum a = .fin false 1 ∨ signum a = .fin true 1 ∨ signum a = .nan) ∧
    (flt (.fin false 0) a = true → signum a = .fin false 1) ∧
    (flt a (.fin false 0) = true → signum a = .fin true 1) ∧
    (signum a = .nan ↔ a = .nan) := by
  cases a with
  | nan => simp [signum, flt]
  | inf s =>
    cases s <;> simp [signum, flt]
  | fin s m =>
    simp only [wfb, decide_eq_true_eq] at ha
    refine ⟨?_, ?_, ?_, by simp [signum]⟩
    · cases s
      · exact Or.inl rfl
      · exact Or.inr (Or.inl rfl)
    · intro h
      cases s
      · rfl
      · exfalso
        simp only [flt, sval, decide_eq_true_eq, if_true, if_false,
          ite_true, ite_false, Bool.false_eq_true] at h
        linarith
    · intro h
      cases s
      · exfalso
        simp only [flt, sval, decide_eq_true_eq, if_true, if_false,
          ite_true, ite_false, Bool.false_eq_true] at h
        linarith
      · rfl

/-- Witness for C9 at a concrete negative value. -/
theorem C9_signum_witness :
    wfb (.fin true 7) = true ∧
    ((signum (.fin true 7) = .fin false 1 ∨ signum (.fin true 7) = .fin true 1 ∨
        signum (.fin true 7) = .nan) ∧
      (flt (.fin false 0) (.fin true 7) = true → signum (.fin true 7) = .fin false 1) ∧
      (flt (.fin true 7) (.fin false 0) = true → signum (.fin true 7) = .fin true 1) ∧
      (signum (.fin true 7) = .nan ↔ (Fp.fin true 7) = .nan)) :=
  ⟨by decide, C9_signum (.fin true 7) (by decide)⟩

/-- C10: the same-width primitive conversions are the exact identity:
`from_f64` on `f64` and `from_f32` on `f32` return the input unchanged,
with no rounding applied. -/
theorem C10_from_same (t : Fp) : f64_from_f64 t = t ∧ f32_from_f32 t = t :=
  ⟨rfl, rfl⟩

end PistonFloat
